import Mathlib

/-!
# linehistory: a bounded, line oriented history of bytes

Shallow embedding of `linering.go` (the ring buffer behind `NewRing`) and
`naive.go` (the compacting buffer behind `NewNaive`).

Conventions of the embedding:

* a Go `[]byte` is a `List Byte`; the backing array of the ring is a list whose
  length is the capacity;
* Go `int` cursors are natural numbers: `head` and `tail` start at `0` and are
  only ever assigned sums and remainders of natural numbers;
* a run-time panic (slice bounds out of range, index out of range, integer
  division by zero) is the result `none`;
* the callback of `Walk` is replaced by the list of the slices it is called
  with, in call order.
-/

namespace LineHistory

/-- A byte. -/
abbrev Byte := Fin 256

/-! ## Go primitives -/

/-- Go slice expression `xs[lo:hi]` on a slice whose capacity is its length:
panics unless `lo ≤ hi ≤ len(xs)`. -/
def slice (xs : List Byte) (lo hi : Nat) : Option (List Byte) :=
  if lo ≤ hi ∧ hi ≤ xs.length then some ((xs.take hi).drop lo) else none

/-- Go `copy(buf[lo:hi], src)`: the first `min (hi - lo) len(src)` bytes of `src`
overwrite `buf` from position `lo` on. The bounds of `buf[lo:hi]` are checked by
the caller. -/
def copy (buf : List Byte) (lo hi : Nat) (src : List Byte) : List Byte :=
  let n := min (hi - lo) src.length
  buf.take lo ++ src.take n ++ buf.drop (lo + n)

/-- Go `bytes.IndexByte(xs, c)`: index of the first `c` in `xs`; `none` stands
for the result `-1`. -/
def IndexByte : List Byte → Byte → Option Nat
  | [], _ => none
  | x :: xs, c => if x = c then some 0 else (IndexByte xs c).map (· + 1)

/-- The helper `imin` of `linering.go`. -/
def imin (a b : Nat) : Nat := if a < b then a else b

/-! ## The ring buffer (`linering.go`) -/

/-- The `ring` struct. -/
structure Ring where
  buffer : List Byte
  head : Nat
  tail : Nat
  sep : Byte
deriving DecidableEq

/-- `NewRing(maxSize, sep)`: a zeroed backing array of `maxSize` bytes. -/
def NewRing (maxSize : Nat) (sep : Byte) : Ring :=
  { buffer := List.replicate maxSize 0, head := 0, tail := 0, sep := sep }

/-- `ring.Len`. The result is a Go `int`, kept as an integer here. -/
def Ring.Len (r : Ring) : Int :=
  if r.head < r.tail then
    (r.tail : Int) - r.head
  else
    ((r.tail : Int) + r.buffer.length) - r.head

/-- `ring.Cap`: the capacity of the backing array, which is made with
`make([]byte, maxSize)` and never re-sliced. -/
def Ring.Cap (r : Ring) : Nat := r.buffer.length

/-- `ring.Add`. `none` is a panic. -/
def Ring.Add (r : Ring) (b : List Byte) : Option Ring :=
  let n := r.buffer.length
  let newTail := b.length + r.tail
  if newTail > n then
    -- `newTail %= len(r.buffer)` divides by zero on an empty backing array
    if n = 0 then none else
    let newTail := newTail % n
    -- `r.buffer[r.tail:len(r.buffer)]`
    if r.tail > n then none else
    let overflow := n - r.tail
    -- `b[:overflow]`
    if overflow > b.length then none else
    let buf1 := copy r.buffer r.tail n (b.take overflow)
    -- `r.buffer[0:newTail]` and `b[overflow:]`
    let buf2 := copy buf1 0 newTail (b.drop overflow)
    -- `r.buffer[newTail+1:r.tail]`
    match slice buf2 (newTail + 1) r.tail with
    | none => none
    | some scanned =>
      match IndexByte scanned r.sep with
      | none => some { r with buffer := buf2, head := r.tail, tail := newTail }
      | some index =>
        let realIdx := newTail + 1 + index
        some { r with buffer := buf2, head := (realIdx + 1) % n, tail := newTail }
  else
    some { r with buffer := copy r.buffer r.tail newTail b, tail := newTail }

/-- The loop of `ring.Walk`: `count` iterations are left, `i` is the loop
variable, `lastHead` the start of the record being scanned. -/
def walkLoop (buf : List Byte) (sep : Byte) :
    Nat → Nat → Nat → Option (List (List Byte))
  | 0, _, _ => some []
  | count + 1, i, lastHead =>
    -- `i % len(r.buffer)`
    if buf.length = 0 then none else
    let idx := imin (i % buf.length) i
    match buf[idx]? with
    | none => none
    | some c =>
      if c = sep then
        let tail := idx + 1
        let line :=
          if tail < lastHead then
            match slice buf lastHead buf.length, slice buf 0 tail with
            | some x, some y => some (x ++ y)
            | _, _ => none
          else slice buf lastHead tail
        match line with
        | none => none
        | some l => (walkLoop buf sep count (i + 1) tail).map (l :: ·)
      else walkLoop buf sep count (i + 1) lastHead

/-- `ring.Walk`: the slices handed to the callback, oldest first. The loop
runs while `i < r.head + bytesBetween`, that is `bytesBetween` times (not at
all when `bytesBetween` is negative). -/
def Ring.Walk (r : Ring) : Option (List (List Byte)) :=
  walkLoop r.buffer r.sep r.Len.toNat r.head r.head

/-- A sequence of `Add` calls, stopping at the first panic. -/
def Ring.AddAll (r : Ring) : List (List Byte) → Option Ring
  | [] => some r
  | b :: bs =>
    match r.Add b with
    | none => none
    | some r' => Ring.AddAll r' bs

/-- The cursor invariant of the ring: the backing array keeps its size and
both cursors stay within `0 .. capacity`. -/
def Ring.Inv (r : Ring) (N : Nat) : Prop :=
  r.buffer.length = N ∧ r.head ≤ N ∧ r.tail ≤ N

/-! ## The compacting buffer (`naive.go`) -/

/-- The `naive` struct. -/
structure Naive where
  maxSize : Nat
  buffer : List Byte
  sep : Byte
deriving DecidableEq

/-- `NewNaive(maxSize, sep)`: an empty buffer. -/
def NewNaive (maxSize : Nat) (sep : Byte) : Naive :=
  { maxSize := maxSize, buffer := [], sep := sep }

/-- `naive.Len`. -/
def Naive.Len (r : Naive) : Nat := r.buffer.length

/-- `naive.Add`. `none` is a panic. -/
def Naive.Add (r : Naive) (b0 : List Byte) : Option Naive :=
  -- `if len(b) > r.maxSize { b = b[len(b)-r.maxSize:] }`
  let trimmed :=
    if b0.length > r.maxSize then slice b0 (b0.length - r.maxSize) b0.length else some b0
  match trimmed with
  | none => none
  | some b =>
    if b.length + r.buffer.length ≤ r.maxSize then
      some { r with buffer := r.buffer ++ b }
    else
      -- trim heading lines: `r.buffer = r.buffer[i+1:]`
      let cut :=
        match IndexByte r.buffer r.sep with
        | some i => slice r.buffer (i + 1) r.buffer.length
        | none => some r.buffer
      match cut with
      | none => none
      | some buf1 =>
        if b.length + buf1.length ≤ r.maxSize then
          some { r with buffer := buf1 ++ b }
        else
          let avail : Int := (r.maxSize : Int) - buf1.length
          let need : Int := b.length
          let toFree : Int := need - avail
          if toFree > 0 then
            -- `r.buffer = r.buffer[toFree:]`
            match slice buf1 toFree.toNat buf1.length with
            | none => none
            | some buf2 => some { r with buffer := buf2 ++ b }
          else
            some { r with buffer := buf1 ++ b }

/-- The loop of `naive.Walk`: `count` iterations are left, `i` is the loop
variable, `lastHead` the start of the record being scanned. -/
def naiveLoop (buf : List Byte) (sep : Byte) :
    Nat → Nat → Nat → Option (List (List Byte))
  | 0, _, _ => some []
  | count + 1, i, lastHead =>
    match buf[i]? with
    | none => none
    | some c =>
      if c = sep then
        let tail := i + 1
        match slice buf lastHead tail with
        | none => none
        | some l => (naiveLoop buf sep count (i + 1) tail).map (l :: ·)
      else naiveLoop buf sep count (i + 1) lastHead

/-- `naive.Walk`: the slices handed to the callback, oldest first;
`for i := range r.buffer` runs `len(r.buffer)` times from `i = 0`. -/
def Naive.Walk (r : Naive) : Option (List (List Byte)) :=
  naiveLoop r.buffer r.sep r.buffer.length 0 0

/-- A sequence of `Add` calls, stopping at the first panic. -/
def Naive.AddAll (r : Naive) : List (List Byte) → Option Naive
  | [] => some r
  | b :: bs =>
    match r.Add b with
    | none => none
    | some r' => Naive.AddAll r' bs

/-- The content of the compacting buffer after `Add(b0)`, in closed form
(`Naive.Add_eq` proves that `naive.Add` computes it): `b0` cut to its last
`maxSize` bytes, appended to the old content, to the old content after its
first record, or to what is left of that after dropping the bytes still in
excess. -/
def naiveNext (maxSize : Nat) (sep : Byte) (buf b0 : List Byte) : List Byte :=
  let b := b0.drop (b0.length - maxSize)
  if b.length + buf.length ≤ maxSize then buf ++ b
  else
    let buf1 :=
      match IndexByte buf sep with
      | some i => buf.drop (i + 1)
      | none => buf
    if b.length + buf1.length ≤ maxSize then buf1 ++ b
    else buf1.drop (b.length + buf1.length - maxSize) ++ b

/-! ## Records -/

/-- A record for separator `sep`: bytes free of `sep` followed by one `sep`. -/
def IsRecord (sep : Byte) (rec : List Byte) : Prop :=
  ∃ body : List Byte, rec = body ++ [sep] ∧ sep ∉ body

/-! ## Reading the ring at circular positions -/

/-- The `count` bytes of `buf` at the circular positions `start`, `start + 1`,
... (each taken modulo `len(buf)`). With `start = head` and `count = Len()`
these are the resident bytes of a ring. -/
def circRead (buf : List Byte) : Nat → Nat → List Byte
  | _, 0 => []
  | start, count + 1 => buf.getD (start % buf.length) 0 :: circRead buf (start + 1) count

/-- The backing array of the ring read once around, starting at `tail`: the
position written longest ago comes first, the one written last comes last. -/
def Ring.unrolled (r : Ring) : List Byte :=
  r.buffer.drop r.tail ++ r.buffer.take r.tail

/-- The ring against the stream `S` of all bytes added so far: the cursor
invariant, the last `N` bytes of `S` at the end of the unrolled backing array,
and `Len()` no larger than the stream once something has been added. -/
def Ring.Tracks (r : Ring) (N : Nat) (S : List Byte) : Prop :=
  r.Inv N ∧ r.tail ≤ S.length ∧
    ((S = [] ∧ r.head = 0) ∨ r.Len.toNat ≤ S.length) ∧
    S.drop (S.length - N) <:+ r.unrolled

/-! ## The capacity of the slice behind the compacting buffer -/

/-- The capacity of a slice after `append(s, b...)`, where `s` has capacity
`cap` and length `len` and `b` has `add` bytes: unchanged when the bytes fit,
otherwise the capacity of the newly allocated array. That capacity is chosen by
the Go runtime, which is no part of `naive.go`; it is the parameter `grow`
(old capacity, required length). -/
def appendCap (grow : Nat → Nat → Nat) (cap len add : Nat) : Nat :=
  if len + add ≤ cap then cap else grow cap (len + add)

/-- The value of `cap(r.buffer)` after `naive.Add`, given its value `cap`
before: the branches are those of `Naive.Add`; a re-slice `r.buffer[k:]` takes
`k` off the capacity, an `append` goes through `appendCap`. -/
def Naive.CapAfterAdd (grow : Nat → Nat → Nat) (r : Naive) (cap : Nat) (b0 : List Byte) :
    Nat :=
  let b := if b0.length > r.maxSize then b0.drop (b0.length - r.maxSize) else b0
  if b.length + r.buffer.length ≤ r.maxSize then
    appendCap grow cap r.buffer.length b.length
  else
    let cut :=
      match IndexByte r.buffer r.sep with
      | some i => (r.buffer.drop (i + 1), cap - (i + 1))
      | none => (r.buffer, cap)
    if b.length + cut.1.length ≤ r.maxSize then
      appendCap grow cut.2 cut.1.length b.length
    else
      let avail : Int := (r.maxSize : Int) - cut.1.length
      let need : Int := b.length
      let toFree : Int := need - avail
      if toFree > 0 then
        appendCap grow (cut.2 - toFree.toNat) (cut.1.length - toFree.toNat) b.length
      else
        appendCap grow cut.2 cut.1.length b.length

/-- The value of `Cap()` after a sequence of `Add` calls on a compacting buffer
whose slice has capacity `cap`. -/
def Naive.CapAll (grow : Nat → Nat → Nat) : Naive → Nat → List (List Byte) → Nat
  | _, cap, [] => cap
  | r, cap, b :: bs =>
    match r.Add b with
    | none => cap
    | some r' => Naive.CapAll grow r' (r.CapAfterAdd grow cap b) bs

/-! ## Basic facts about the primitives -/

theorem copy_length (buf : List Byte) (lo hi : Nat) (src : List Byte)
    (h1 : lo ≤ hi) (h2 : hi ≤ buf.length) :
    (copy buf lo hi src).length = buf.length := by
  simp only [copy, List.length_append, List.length_take, List.length_drop]
  omega

/-! ## The cursor invariant of the ring -/

theorem NewRing_inv (N : Nat) (sep : Byte) : (NewRing N sep).Inv N := by
  simp [Ring.Inv, NewRing]

theorem Ring.Add_inv {r r' : Ring} {N : Nat} {b : List Byte}
    (hr : r.Inv N) (h : r.Add b = some r') : r'.Inv N := by
  obtain ⟨hlen, hhead, htail⟩ := hr
  unfold Ring.Add at h
  simp only at h
  split at h
  · split at h
    · exact absurd h (by simp)
    · rename_i hN
      split at h
      · exact absurd h (by simp)
      · split at h
        · exact absurd h (by simp)
        · have hmod : (b.length + r.tail) % r.buffer.length < r.buffer.length :=
            Nat.mod_lt _ (Nat.pos_of_ne_zero hN)
          have hl1 : (copy r.buffer r.tail r.buffer.length
              (List.take (r.buffer.length - r.tail) b)).length = r.buffer.length :=
            copy_length _ _ _ _ (by omega) (le_refl _)
          have hl2 : (copy (copy r.buffer r.tail r.buffer.length
              (List.take (r.buffer.length - r.tail) b)) 0
              ((b.length + r.tail) % r.buffer.length)
              (List.drop (r.buffer.length - r.tail) b)).length = r.buffer.length := by
            rw [copy_length _ _ _ _ (Nat.zero_le _) (by omega), hl1]
          split at h
          · exact absurd h (by simp)
          · split at h
            · cases h
              refine ⟨by simpa [hl2] using hlen, ?_, ?_⟩ <;> simp only <;> omega
            · cases h
              refine ⟨by simpa [hl2] using hlen, ?_, ?_⟩
              · simp only
                have := Nat.mod_lt ((b.length + r.tail) % r.buffer.length + 1 + ‹Nat› + 1)
                  (Nat.pos_of_ne_zero hN)
                omega
              · simp only; omega
  · cases h
    refine ⟨?_, hhead, ?_⟩
    · simp only
      rw [copy_length _ _ _ _ (by omega) (by omega)]
      exact hlen
    · simp only; omega

theorem Ring.AddAll_inv {N : Nat} (bs : List (List Byte)) :
    ∀ {r r' : Ring}, r.Inv N → r.AddAll bs = some r' → r'.Inv N := by
  induction bs with
  | nil => intro r r' hr h; simp [Ring.AddAll] at h; exact h ▸ hr
  | cons b bs ih =>
    intro r r' hr h
    simp only [Ring.AddAll] at h
    split at h
    · exact absurd h (by simp)
    · rename_i r1 h1
      exact ih (Ring.Add_inv hr h1) h

theorem Ring.Len_bounds {r : Ring} {N : Nat} (hr : r.Inv N) :
    0 ≤ r.Len ∧ r.Len ≤ N := by
  obtain ⟨hlen, hhead, htail⟩ := hr
  unfold Ring.Len
  split <;> constructor <;> omega

/-- C1: on a ring made by `NewRing N sep`, after any sequence of `Add` calls
that all complete, `0 ≤ Len() ≤ Cap()` and `Cap() = N`. Every intermediate
state is the result of a shorter such sequence, so the property holds after
each call. -/
theorem ring_capacity_invariant (N : Nat) (sep : Byte) (bs : List (List Byte))
    (r : Ring) (h : (NewRing N sep).AddAll bs = some r) :
    0 ≤ r.Len ∧ r.Len ≤ r.Cap ∧ r.Cap = N := by
  have hinv := Ring.AddAll_inv bs (NewRing_inv N sep) h
  have hb := Ring.Len_bounds hinv
  have hc : r.Cap = N := hinv.1
  exact ⟨hb.1, by rw [hc]; exact hb.2, hc⟩

/-- Two five byte lines added to a ring of seven bytes: the second `Add` wraps. -/
theorem ring_capacity_invariant_witness :
    (NewRing 7 10).AddAll [[104, 101, 114, 112, 10], [104, 101, 114, 112, 10]]
        = some ⟨[114, 112, 10, 112, 10, 104, 101], 5, 3, 10⟩ ∧
      (0 ≤ Ring.Len ⟨[114, 112, 10, 112, 10, 104, 101], 5, 3, 10⟩ ∧
        Ring.Len ⟨[114, 112, 10, 112, 10, 104, 101], 5, 3, 10⟩
          ≤ Ring.Cap ⟨[114, 112, 10, 112, 10, 104, 101], 5, 3, 10⟩ ∧
        Ring.Cap ⟨[114, 112, 10, 112, 10, 104, 101], 5, 3, 10⟩ = 7) :=
  ⟨by decide,
    ring_capacity_invariant 7 10 [[104, 101, 114, 112, 10], [104, 101, 114, 112, 10]]
      ⟨[114, 112, 10, 112, 10, 104, 101], 5, 3, 10⟩ (by decide)⟩

/-! ## Scanning a run of records -/

theorem walkLoop_eq_naiveLoop (buf : List Byte) (sep : Byte) :
    ∀ (count i lastHead : Nat), i + count ≤ buf.length → lastHead ≤ i →
      walkLoop buf sep count i lastHead = naiveLoop buf sep count i lastHead := by
  intro count
  induction count with
  | zero => intro i lastHead _ _; simp [walkLoop, naiveLoop]
  | succ k ih =>
    intro i lastHead hi hl
    have hne : buf.length ≠ 0 := by omega
    have hidx : imin (i % buf.length) i = i := by
      rw [Nat.mod_eq_of_lt (by omega)]; simp [imin]
    have hnot : ¬ (i + 1 < lastHead) := by omega
    simp only [walkLoop, naiveLoop, hne, if_false, hidx, hnot]
    cases hget : buf[i]? with
    | none => rfl
    | some c =>
      simp only
      by_cases hc : c = sep
      · simp only [hc, if_true]
        rw [ih (i + 1) (i + 1) (by omega) (le_refl _)]
      · simp only [hc, if_false]
        exact ih (i + 1) lastHead (by omega) (by omega)

theorem naiveLoop_skip (sep : Byte) (body : List Byte) (hb : sep ∉ body) :
    ∀ (pre rest : List Byte) (k lh : Nat),
      naiveLoop (pre ++ (body ++ rest)) sep (body.length + k) pre.length lh
        = naiveLoop (pre ++ (body ++ rest)) sep k (pre.length + body.length) lh := by
  induction body with
  | nil => intro pre rest k lh; simp
  | cons x xs ih =>
    intro pre rest k lh
    have hx : ¬ (x = sep) := fun h => hb (by simp [h])
    have hxs : sep ∉ xs := fun h => hb (by simp [h])
    have hcount : (x :: xs).length + k = (xs.length + k) + 1 := by simp; omega
    have hget : (pre ++ (x :: xs ++ rest))[pre.length]? = some x := by
      rw [List.getElem?_append_right (le_refl _)]; simp
    rw [hcount, naiveLoop, hget]
    simp only [hx, if_false]
    have hsplit : pre ++ (x :: xs ++ rest) = (pre ++ [x]) ++ (xs ++ rest) := by simp
    have := ih hxs (pre ++ [x]) rest k lh
    rw [List.length_append, List.length_singleton] at this
    rw [hsplit, this]
    congr 1
    simp only [List.length_cons]
    omega

theorem slice_middle (pre mid rest : List Byte) :
    slice (pre ++ (mid ++ rest)) pre.length (pre.length + mid.length) = some mid := by
  unfold slice
  rw [if_pos (by simp)]
  rw [← List.append_assoc, List.take_left' (by simp), List.drop_left]

theorem naiveLoop_record (sep : Byte) (body : List Byte) (hb : sep ∉ body)
    (pre rest : List Byte) (k : Nat) :
    naiveLoop (pre ++ ((body ++ [sep]) ++ rest)) sep ((body ++ [sep]).length + k)
        pre.length pre.length
      = (naiveLoop (pre ++ ((body ++ [sep]) ++ rest)) sep k
          (pre.length + (body ++ [sep]).length) (pre.length + (body ++ [sep]).length)).map
          ((body ++ [sep]) :: ·) := by
  have hskip := naiveLoop_skip sep body hb pre ([sep] ++ rest) (k + 1) pre.length
  have hbuf : pre ++ ((body ++ [sep]) ++ rest) = pre ++ (body ++ ([sep] ++ rest)) := by simp
  have hcount : (body ++ [sep]).length + k = body.length + (k + 1) := by simp; omega
  have hget : (pre ++ (body ++ ([sep] ++ rest)))[pre.length + body.length]? = some sep := by
    rw [← List.append_assoc, List.getElem?_append_right (by simp)]; simp
  have hsl := slice_middle pre (body ++ [sep]) rest
  rw [hcount, hbuf, hskip, naiveLoop, hget]
  rw [hbuf] at hsl
  simp only [List.length_append, List.length_singleton, if_true] at hsl ⊢
  rw [show pre.length + body.length + 1 = pre.length + (body.length + 1) by omega, hsl]

theorem naiveLoop_records (sep : Byte) (rs : List (List Byte))
    (hrec : ∀ r ∈ rs, IsRecord sep r) :
    ∀ (pre rest : List Byte),
      naiveLoop (pre ++ (rs.flatten ++ rest)) sep rs.flatten.length pre.length pre.length
        = some rs := by
  induction rs with
  | nil => intro pre rest; simp [naiveLoop]
  | cons r rs ih =>
    intro pre rest
    obtain ⟨body, rfl, hb⟩ := hrec r (by simp)
    have hrest : ∀ r ∈ rs, IsRecord sep r := fun r hr => hrec r (by simp [hr])
    have h1 := naiveLoop_record sep body hb pre (rs.flatten ++ rest) rs.flatten.length
    have h2 := ih hrest (pre ++ (body ++ [sep])) rest
    simp only [List.flatten_cons, List.length_append, List.append_assoc, Nat.add_assoc]
      at h1 h2 ⊢
    rw [h1, h2]
    rfl

/-! ## Adds that do not reach the end of the backing array -/

theorem Ring.Add_fit (r : Ring) (b : List Byte) (h : b.length + r.tail ≤ r.buffer.length) :
    r.Add b = some { r with buffer := copy r.buffer r.tail (b.length + r.tail) b,
                            tail := b.length + r.tail } := by
  unfold Ring.Add
  simp only
  rw [if_neg (by omega)]

theorem copy_fit (data pad b : List Byte) :
    copy (data ++ pad) data.length (b.length + data.length) b
      = (data ++ b) ++ pad.drop b.length := by
  unfold copy
  simp only [Nat.add_sub_cancel, Nat.min_self, List.take_length, List.take_left,
    List.drop_append]

theorem Ring.AddAll_fit (sep : Byte) (rs : List (List Byte)) :
    ∀ (data pad : List Byte), rs.flatten.length ≤ pad.length →
      Ring.AddAll ⟨data ++ pad, 0, data.length, sep⟩ rs
        = some ⟨(data ++ rs.flatten) ++ pad.drop rs.flatten.length, 0,
            data.length + rs.flatten.length, sep⟩ := by
  induction rs with
  | nil => intro data pad _; simp [Ring.AddAll]
  | cons b rs ih =>
    intro data pad h
    simp only [List.flatten_cons, List.length_append] at h
    have hadd := Ring.Add_fit ⟨data ++ pad, 0, data.length, sep⟩ b
      (by simp only [List.length_append]; omega)
    simp only [copy_fit data pad b] at hadd
    simp only [Ring.AddAll, hadd]
    have := ih (data ++ b) (pad.drop b.length) (by simp only [List.length_drop]; omega)
    simp only [List.length_append, Nat.add_comm b.length] at this ⊢
    rw [this]
    simp [List.drop_drop, Nat.add_assoc, Nat.add_comm]
    omega

/-- C2: records `r1 .. rk` (`k ≥ 1`, each one bytes free of the separator
followed by the separator) of total length at most `N` (exactly `N` included),
added in order to `NewRing N sep`: every `Add` completes and `Walk` then
surfaces exactly `r1 .. rk`, in that order. -/
theorem ring_faithful_retention (N : Nat) (sep : Byte) (rs : List (List Byte))
    (hne : rs ≠ []) (hrec : ∀ r ∈ rs, IsRecord sep r) (htot : rs.flatten.length ≤ N) :
    ((NewRing N sep).AddAll rs).bind Ring.Walk = some rs := by
  have hadd := Ring.AddAll_fit sep rs [] (List.replicate N 0) (by simpa using htot)
  have hpos : 0 < rs.flatten.length := by
    cases rs with
    | nil => exact absurd rfl hne
    | cons r rs =>
      obtain ⟨body, rfl, _⟩ := hrec r (by simp)
      simp only [List.flatten_cons, List.length_append, List.length_singleton]
      omega
  simp only [List.nil_append, List.length_nil, Nat.zero_add] at hadd
  have hnew : NewRing N sep = ⟨List.replicate N 0, 0, 0, sep⟩ := rfl
  rw [hnew, hadd, Option.some_bind]
  unfold Ring.Walk Ring.Len
  simp only [hpos, if_true]
  have hlen : ((rs.flatten.length : Int) - ((0 : Nat) : Int)).toNat = rs.flatten.length := by
    omega
  rw [hlen, walkLoop_eq_naiveLoop _ _ _ _ _ (by simp) (le_refl _)]
  exact naiveLoop_records sep rs hrec [] _

/-- The two lines of `TestCanAddTwoLines` in a ring of exactly twelve bytes. -/
theorem ring_faithful_retention_witness :
    ((NewRing 12 10).AddAll [[104, 101, 108, 108, 111, 33, 10], [98, 121, 101, 33, 10]]).bind
        Ring.Walk
      = some [[104, 101, 108, 108, 111, 33, 10], [98, 121, 101, 33, 10]] :=
  ring_faithful_retention 12 10 [[104, 101, 108, 108, 111, 33, 10], [98, 121, 101, 33, 10]]
    (by decide)
    (by
      intro r hr
      simp only [List.mem_cons, List.mem_singleton, List.not_mem_nil, or_false] at hr
      rcases hr with rfl | rfl
      · exact ⟨[104, 101, 108, 108, 111, 33], rfl, by decide⟩
      · exact ⟨[98, 121, 101, 33], rfl, by decide⟩)
    (by decide)

/-! ## The ring on inputs where it departs from its contract -/

/-- C3: failing input. Capacity 10, separator 10; the records `aaaa\n`,
`bbbbbb\n`, `cccccc\n` are added in order and every `Add` completes. The third
`Add` does not reach the end of the backing array, so `head` stays at 5 while
positions 2 to 8 are overwritten: `Walk` surfaces the single slice `ccc\n`,
which is a fragment of the last record and not a suffix of the added list. -/
theorem ring_walk_not_suffix_of_added :
    (NewRing 10 10).AddAll
        [[97, 97, 97, 97, 10], [98, 98, 98, 98, 98, 98, 10], [99, 99, 99, 99, 99, 99, 10]]
      = some ⟨[98, 10, 99, 99, 99, 99, 99, 99, 10, 98], 5, 9, 10⟩ ∧
    Ring.Walk ⟨[98, 10, 99, 99, 99, 99, 99, 99, 10, 98], 5, 9, 10⟩ = some [[99, 99, 99, 10]] ∧
    ¬ ([[99, 99, 99, 10]] <:+
        [[97, 97, 97, 97, 10], [98, 98, 98, 98, 98, 98, 10],
          [(99 : Byte), 99, 99, 99, 99, 99, 10]]) := by
  decide

/-- C4: failing input, the one of `TestAddingLineFitsOnlyOneManyTimes`.
Capacity 7, separator 10, the record `herp\n` added four times. After three
Adds the ring holds `head = 3`, `tail = 1`; the fourth `Add` completes without
reaching the end of the backing array and leaves `head = 3`, so the `Walk`
right after it surfaces `rp\n` and not the record just written. -/
theorem ring_walk_after_add_loses_record :
    (NewRing 7 10).AddAll
        [[104, 101, 114, 112, 10], [104, 101, 114, 112, 10], [104, 101, 114, 112, 10]]
      = some ⟨[10, 112, 10, 104, 101, 114, 112], 3, 1, 10⟩ ∧
    Ring.Add ⟨[10, 112, 10, 104, 101, 114, 112], 3, 1, 10⟩ [104, 101, 114, 112, 10]
      = some ⟨[10, 104, 101, 114, 112, 10, 112], 3, 6, 10⟩ ∧
    Ring.Walk ⟨[10, 104, 101, 114, 112, 10, 112], 3, 6, 10⟩ = some [[114, 112, 10]] := by
  decide

/-- C5: failing input. Capacity 2: after `Add` of the one byte record `\n` the
tail is 1, and an `Add` of two bytes (no longer than the capacity) panics: the
new tail is again 1 and the slice `buffer[newTail+1 : tail]` is `buffer[2:1]`. -/
theorem ring_add_of_capacity_bytes_panics :
    (NewRing 2 10).Add [10] = some ⟨[10, 0], 0, 1, 10⟩ ∧
    Ring.Add ⟨[10, 0], 0, 1, 10⟩ [0, 10] = none := by
  decide

/-- C6: failing input. Capacity 2: after `Add` of one byte the tail is 1, and
an `Add` of three bytes (longer than the capacity) completes: the new tail is
`4 % 2 = 0`, the slice `buffer[1:1]` is in range, and the first of the three
bytes has been stored. -/
theorem ring_add_oversized_completes :
    (NewRing 2 10).Add [65] = some ⟨[65, 0], 0, 1, 10⟩ ∧
    Ring.Add ⟨[65, 0], 0, 1, 10⟩ [66, 67, 68] = some ⟨[65, 66], 1, 0, 10⟩ := by
  decide

/-! ## The compacting buffer: `Add` in closed form -/

theorem IndexByte_lt (c : Byte) :
    ∀ (xs : List Byte) (i : Nat), IndexByte xs c = some i → i < xs.length := by
  intro xs
  induction xs with
  | nil => intro i h; simp [IndexByte] at h
  | cons x xs ih =>
    intro i h
    simp only [IndexByte] at h
    split at h
    · cases h; simp
    · cases hrec : IndexByte xs c with
      | none => simp [hrec] at h
      | some j =>
        simp only [hrec, Option.map_some', Option.some.injEq] at h
        have := ih j hrec
        simp only [List.length_cons]
        omega

theorem slice_to_end (xs : List Byte) (lo : Nat) (h : lo ≤ xs.length) :
    slice xs lo xs.length = some (xs.drop lo) := by
  unfold slice
  rw [if_pos ⟨h, le_refl _⟩, List.take_length]

theorem Naive.Add_eq (r : Naive) (b0 : List Byte) :
    r.Add b0 = some { r with buffer := naiveNext r.maxSize r.sep r.buffer b0 } := by
  have htrim : (if b0.length > r.maxSize then
      slice b0 (b0.length - r.maxSize) b0.length else some b0)
      = some (b0.drop (b0.length - r.maxSize)) := by
    split
    · exact slice_to_end b0 _ (by omega)
    · rw [show b0.length - r.maxSize = 0 by omega, List.drop_zero]
  have hblen : (b0.drop (b0.length - r.maxSize)).length ≤ r.maxSize := by
    rw [List.length_drop]; omega
  have hcut : (match IndexByte r.buffer r.sep with
      | some i => slice r.buffer (i + 1) r.buffer.length
      | none => some r.buffer)
      = some (match IndexByte r.buffer r.sep with
        | some i => r.buffer.drop (i + 1)
        | none => r.buffer) := by
    cases hi : IndexByte r.buffer r.sep with
    | none => rfl
    | some i => exact slice_to_end _ _ (IndexByte_lt _ _ _ hi)
  unfold Naive.Add naiveNext
  simp only [htrim, hcut]
  split
  · rfl
  · split
    · rfl
    · rename_i h1 h2
      rw [if_pos (by omega)]
      have key : ∀ (x y z : Nat), ((x : Int) - ((y : Int) - (z : Int))).toNat = x + z - y := by
        intro x y z; omega
      rw [key]
      rw [slice_to_end _ _ (by omega)]

theorem naiveNext_length_le (maxSize : Nat) (sep : Byte) (buf b0 : List Byte) :
    (naiveNext maxSize sep buf b0).length ≤ maxSize := by
  have hblen : (b0.drop (b0.length - maxSize)).length ≤ maxSize := by
    rw [List.length_drop]; omega
  unfold naiveNext
  simp only
  split
  · rw [List.length_append]; omega
  · split
    · rw [List.length_append]; omega
    · rw [List.length_append, List.length_drop]; omega

theorem Naive.AddAll_total (bs : List (List Byte)) :
    ∀ (r : Naive), r.buffer.length ≤ r.maxSize →
      ∃ r', r.AddAll bs = some r' ∧ r'.maxSize = r.maxSize ∧ r'.sep = r.sep ∧
        r'.buffer.length ≤ r.maxSize := by
  induction bs with
  | nil => intro r h; exact ⟨r, rfl, rfl, rfl, h⟩
  | cons b bs ih =>
    intro r _
    obtain ⟨r', h1, h2, h3, h4⟩ :=
      ih { r with buffer := naiveNext r.maxSize r.sep r.buffer b }
        (naiveNext_length_le _ _ _ _)
    exact ⟨r', by simp only [Naive.AddAll, Naive.Add_eq]; exact h1, h2, h3, h4⟩

/-- C7: on a compacting buffer made by `NewNaive maxSize sep`, for every
`maxSize`, separator and sequence of byte strings of any length, every `Add`
of the sequence completes and the resulting `Len()` is at most `maxSize`.
Every intermediate state is the result of a shorter sequence. -/
theorem naive_capacity_invariant (maxSize : Nat) (sep : Byte) (bs : List (List Byte)) :
    ∃ r, (NewNaive maxSize sep).AddAll bs = some r ∧ r.Len ≤ maxSize := by
  obtain ⟨r, h1, _, _, h4⟩ := Naive.AddAll_total bs (NewNaive maxSize sep) (Nat.zero_le _)
  exact ⟨r, h1, h4⟩

theorem naiveNext_of_ge (maxSize : Nat) (sep : Byte) (buf b : List Byte)
    (h : maxSize ≤ b.length) :
    naiveNext maxSize sep buf b = b.drop (b.length - maxSize) := by
  have hblen : (b.drop (b.length - maxSize)).length = maxSize := by
    rw [List.length_drop]; omega
  unfold naiveNext
  simp only [hblen]
  split
  · have : buf = [] := List.eq_nil_of_length_eq_zero (by omega)
    rw [this, List.nil_append]
  · split
    · have hnil : (match IndexByte buf sep with
          | some i => buf.drop (i + 1)
          | none => buf) = [] := List.eq_nil_of_length_eq_zero (by omega)
      rw [hnil, List.nil_append]
    · rw [Nat.add_sub_cancel_left, List.drop_length, List.nil_append]

theorem naiveNext_fit (maxSize : Nat) (sep : Byte) (buf b : List Byte)
    (h : b.length + buf.length ≤ maxSize) :
    naiveNext maxSize sep buf b = buf ++ b := by
  unfold naiveNext
  simp only [show b.length - maxSize = 0 by omega, List.drop_zero]
  rw [if_pos h]

/-- C8: for every state of a compacting buffer (reachable or not) and every
byte string `b` with `len(b) ≥ maxSize`, `Add(b)` completes and the content is
then exactly the last `maxSize` bytes of `b`. -/
theorem naive_truncate_keep_tail (r : Naive) (b : List Byte) (h : r.maxSize ≤ b.length) :
    r.Add b = some { r with buffer := b.drop (b.length - r.maxSize) } := by
  rw [Naive.Add_eq, naiveNext_of_ge _ _ _ _ h]

/-- The input of `TestNaiveAddLineBiggerThanBufferTruncatesLine`: capacity 10
and the 29 bytes `i am more than 10 bytes long\n`; the content becomes
`ytes long\n` and `Walk` surfaces that one record. -/
theorem naive_truncate_keep_tail_witness :
    (NewNaive 10 10).Add
        [105, 32, 97, 109, 32, 109, 111, 114, 101, 32, 116, 104, 97, 110, 32, 49, 48, 32,
          98, 121, 116, 101, 115, 32, 108, 111, 110, 103, 10]
      = some ⟨10, [121, 116, 101, 115, 32, 108, 111, 110, 103, 10], 10⟩ ∧
    Naive.Walk ⟨10, [121, 116, 101, 115, 32, 108, 111, 110, 103, 10], 10⟩
      = some [[121, 116, 101, 115, 32, 108, 111, 110, 103, 10]] :=
  ⟨naive_truncate_keep_tail (NewNaive 10 10)
      [105, 32, 97, 109, 32, 109, 111, 114, 101, 32, 116, 104, 97, 110, 32, 49, 48, 32,
        98, 121, 116, 101, 115, 32, 108, 111, 110, 103, 10] (by decide),
    by decide⟩

/-! ## The compacting buffer: retention and eviction -/

theorem Naive.AddAll_append (N : Nat) (sep : Byte) (rs : List (List Byte)) :
    ∀ (data : List Byte), data.length + rs.flatten.length ≤ N →
      Naive.AddAll ⟨N, data, sep⟩ rs = some ⟨N, data ++ rs.flatten, sep⟩ := by
  induction rs with
  | nil => intro data _; simp [Naive.AddAll]
  | cons b rs ih =>
    intro data h
    simp only [List.flatten_cons, List.length_append] at h
    simp only [Naive.AddAll, Naive.Add_eq]
    rw [naiveNext_fit _ _ _ _ (by omega), ih (data ++ b) (by rw [List.length_append]; omega)]
    simp

/-- C9: records `r1 .. rk` (each one bytes free of the separator followed by
the separator) of total length at most `N`, added in order to
`NewNaive N sep`: every `Add` completes and `Walk` then surfaces exactly
`r1 .. rk`, in that order. -/
theorem naive_faithful_retention (N : Nat) (sep : Byte) (rs : List (List Byte))
    (hrec : ∀ r ∈ rs, IsRecord sep r) (htot : rs.flatten.length ≤ N) :
    ((NewNaive N sep).AddAll rs).bind Naive.Walk = some rs := by
  have hadd := Naive.AddAll_append N sep rs [] (by simpa using htot)
  have hnew : NewNaive N sep = ⟨N, [], sep⟩ := rfl
  rw [hnew, hadd, Option.some_bind]
  unfold Naive.Walk
  have := naiveLoop_records sep rs hrec [] []
  simpa using this

/-- The two lines of `TestNaiveCanAddTwoLines` in a buffer of exactly twelve
bytes. -/
theorem naive_faithful_retention_witness :
    ((NewNaive 12 10).AddAll [[104, 101, 108, 108, 111, 33, 10], [98, 121, 101, 33, 10]]).bind
        Naive.Walk
      = some [[104, 101, 108, 108, 111, 33, 10], [98, 121, 101, 33, 10]] :=
  naive_faithful_retention 12 10 [[104, 101, 108, 108, 111, 33, 10], [98, 121, 101, 33, 10]]
    (by
      intro r hr
      simp only [List.mem_cons, List.mem_singleton, List.not_mem_nil, or_false] at hr
      rcases hr with rfl | rfl
      · exact ⟨[104, 101, 108, 108, 111, 33], rfl, by decide⟩
      · exact ⟨[98, 121, 101, 33], rfl, by decide⟩)
    (by decide)

theorem suffix_append_cases (l1 l2 : List Byte) :
    ∀ (buf : List Byte), buf <:+ l1 ++ l2 →
      buf <:+ l2 ∨ ∃ t, t <:+ l1 ∧ t ≠ [] ∧ buf = t ++ l2 := by
  induction l1 with
  | nil => intro buf h; exact Or.inl (by simpa using h)
  | cons a l1 ih =>
    intro buf h
    rw [List.cons_append, List.suffix_cons_iff] at h
    rcases h with h | h
    · exact Or.inr ⟨a :: l1, List.suffix_refl _, by simp, by simpa using h⟩
    · rcases ih buf h with h' | ⟨t, ht, hne, hbuf⟩
      · exact Or.inl h'
      · exact Or.inr ⟨t, ht.trans (List.suffix_cons a l1), hne, hbuf⟩

theorem IsRecord.of_suffix {sep : Byte} {full frag : List Byte} (hfull : IsRecord sep full)
    (hs : frag <:+ full) (hne : frag ≠ []) : IsRecord sep frag := by
  obtain ⟨body, rfl, hb⟩ := hfull
  rcases suffix_append_cases body [sep] frag hs with h | ⟨t, ht, _, rfl⟩
  · rw [List.suffix_cons_iff, List.suffix_nil] at h
    rcases h with h | h
    · exact ⟨[], by simpa using h, by simp⟩
    · exact absurd h hne
  · exact ⟨t, rfl, fun hm => hb (ht.subset hm)⟩

theorem suffix_flatten_records (rs : List (List Byte)) :
    ∀ (buf : List Byte), buf <:+ rs.flatten →
      (∃ rest, rest <:+ rs ∧ buf = rest.flatten) ∨
      (∃ frag full rest, (full :: rest) <:+ rs ∧ frag <:+ full ∧ frag ≠ [] ∧
        buf = frag ++ rest.flatten) := by
  induction rs with
  | nil =>
    intro buf h
    exact Or.inl ⟨[], List.suffix_refl _, by simpa using h⟩
  | cons r rs ih =>
    intro buf h
    rw [List.flatten_cons] at h
    rcases suffix_append_cases r rs.flatten buf h with h' | ⟨t, ht, hne, hbuf⟩
    · rcases ih buf h' with ⟨rest, hrest, hb⟩ | ⟨frag, full, rest, hsuf, hfrag, hne, hb⟩
      · exact Or.inl ⟨rest, hrest.trans (List.suffix_cons r rs), hb⟩
      · exact Or.inr ⟨frag, full, rest, hsuf.trans (List.suffix_cons r rs), hfrag, hne, hb⟩
    · exact Or.inr ⟨t, r, rs, List.suffix_refl _, ht, hne, hbuf⟩

theorem naiveNext_suffix (maxSize : Nat) (sep : Byte) (buf b : List Byte) :
    naiveNext maxSize sep buf b <:+ buf ++ b := by
  by_cases hb : maxSize ≤ b.length
  · rw [naiveNext_of_ge _ _ _ _ hb]
    exact (List.drop_suffix _ b).trans (List.suffix_append buf b)
  · have key : ∀ (k : Nat), buf.drop k ++ b <:+ buf ++ b := fun k =>
      ⟨buf.take k, by rw [← List.append_assoc, List.take_append_drop]⟩
    unfold naiveNext
    simp only [show b.length - maxSize = 0 by omega, List.drop_zero]
    split
    · exact List.suffix_refl _
    · cases IndexByte buf sep with
      | none =>
        simp only
        split
        · exact List.suffix_refl _
        · exact key _
      | some i =>
        simp only
        split
        · exact key _
        · rw [List.drop_drop]; exact key _

theorem Naive.AddAll_suffix (bs : List (List Byte)) :
    ∀ (r : Naive) (seen : List Byte), r.buffer <:+ seen →
      ∃ r', r.AddAll bs = some r' ∧ r'.sep = r.sep ∧ r'.buffer <:+ seen ++ bs.flatten := by
  induction bs with
  | nil => intro r seen h; exact ⟨r, rfl, rfl, by simpa using h⟩
  | cons b bs ih =>
    intro r seen h
    have hstep : naiveNext r.maxSize r.sep r.buffer b <:+ seen ++ b := by
      obtain ⟨t, ht⟩ := h
      exact (naiveNext_suffix _ _ _ _).trans ⟨t, by rw [← ht, List.append_assoc]⟩
    obtain ⟨r', h1, h2, h3⟩ :=
      ih { r with buffer := naiveNext r.maxSize r.sep r.buffer b } (seen ++ b) hstep
    exact ⟨r', by simp only [Naive.AddAll, Naive.Add_eq]; exact h1, h2,
      by simpa [List.append_assoc] using h3⟩

theorem Naive.Walk_records (r : Naive) (rs : List (List Byte))
    (hrec : ∀ l ∈ rs, IsRecord r.sep l) (hbuf : r.buffer = rs.flatten) :
    r.Walk = some rs := by
  unfold Naive.Walk
  rw [hbuf]
  have := naiveLoop_records r.sep rs hrec [] []
  simpa using this

/-- How far the fragments of the compacting buffer go: for every capacity
`N`, separator and sequence `rs` of records added to `NewNaive N sep`, every
`Add` completes and the list surfaced by `Walk` is either a suffix of `rs`, or
a non-empty trailing part `frag` of an added record `full` followed by exactly
the records added after `full`. Only the oldest surfaced line can be cut. -/
theorem naive_walk_suffix_up_to_oldest (N : Nat) (sep : Byte) (rs : List (List Byte))
    (hrec : ∀ r ∈ rs, IsRecord sep r) :
    ∃ r out, (NewNaive N sep).AddAll rs = some r ∧ r.Walk = some out ∧
      (out <:+ rs ∨
        ∃ frag full rest, out = frag :: rest ∧ (full :: rest) <:+ rs ∧ frag <:+ full ∧
          frag ≠ []) := by
  obtain ⟨r, hadd, hsep, hsuf⟩ :=
    Naive.AddAll_suffix rs (NewNaive N sep) [] (List.suffix_refl _)
  have hsep' : r.sep = sep := hsep
  rw [List.nil_append] at hsuf
  rcases suffix_flatten_records rs r.buffer hsuf with
    ⟨rest, hrest, hb⟩ | ⟨frag, full, rest, hfr, hfrag, hne, hb⟩
  · refine ⟨r, rest, hadd, ?_, Or.inl hrest⟩
    exact Naive.Walk_records r rest
      (fun l hl => hsep' ▸ hrec l (hrest.subset hl)) hb
  · refine ⟨r, frag :: rest, hadd, ?_, Or.inr ⟨frag, full, rest, rfl, hfr, hfrag, hne⟩⟩
    refine Naive.Walk_records r (frag :: rest) ?_ (by rw [hb, List.flatten_cons])
    intro l hl
    rw [hsep']
    rcases List.mem_cons.mp hl with rfl | hl
    · exact (hrec full (hfr.subset (List.mem_cons_self _ _))).of_suffix hfrag hne
    · exact hrec l (hfr.subset (List.mem_cons_of_mem _ hl))

/-- C10: failing input. Capacity 10, separator 10, the records `aa\n`,
`bbb\n`, `cccccc\n` (each a record of at most ten bytes). After two Adds the
content is `aa\nbbb\n`. The third `Add` trims the heading line `aa\n`, is
still one byte short and cuts the first byte of `bbb\n` with
`r.buffer[toFree:]`, although that line ends in a separator and could have
been trimmed whole: the content becomes `bb\ncccccc\n` and `Walk` surfaces
`bb\n`, `cccccc\n`, which is not a suffix of the added records. -/
theorem naive_walk_not_suffix_of_added :
    (∀ r ∈ [[97, 97, 10], [98, 98, 98, 10], [(99 : Byte), 99, 99, 99, 99, 99, 10]],
      IsRecord 10 r ∧ r.length ≤ 10) ∧
    (NewNaive 10 10).AddAll [[97, 97, 10], [98, 98, 98, 10]]
      = some ⟨10, [97, 97, 10, 98, 98, 98, 10], 10⟩ ∧
    Naive.Add ⟨10, [97, 97, 10, 98, 98, 98, 10], 10⟩ [99, 99, 99, 99, 99, 99, 10]
      = some ⟨10, [98, 98, 10, 99, 99, 99, 99, 99, 99, 10], 10⟩ ∧
    Naive.Walk ⟨10, [98, 98, 10, 99, 99, 99, 99, 99, 99, 10], 10⟩
      = some [[98, 98, 10], [99, 99, 99, 99, 99, 99, 10]] ∧
    ¬ ([[98, 98, 10], [99, 99, 99, 99, 99, 99, 10]] <:+
        [[97, 97, 10], [98, 98, 98, 10], [(99 : Byte), 99, 99, 99, 99, 99, 10]]) := by
  refine ⟨?_, by decide, by decide, by decide, by decide⟩
  intro r hr
  simp only [List.mem_cons, List.mem_singleton, List.not_mem_nil, or_false] at hr
  rcases hr with rfl | rfl | rfl
  · exact ⟨⟨[97, 97], rfl, by decide⟩, by decide⟩
  · exact ⟨⟨[98, 98, 98], rfl, by decide⟩, by decide⟩
  · exact ⟨⟨[99, 99, 99, 99, 99, 99], rfl, by decide⟩, by decide⟩

/-! ## The reported capacity of the compacting buffer -/

/-- C11: failing input, the one of `TestNaiveCanOverflow`. `NewNaive(20, 10)`
starts with a slice of capacity 20. The third `Add` re-slices `r.buffer[7:]`,
which leaves 11 bytes in a slice of capacity 13, and appends 5 bytes: they do
not fit, so `append` allocates a new array and `Cap()` becomes the capacity the
runtime picks for it, `grow 13 16`, whatever the growth rule is. -/
theorem naive_cap_after_eviction (grow : Nat → Nat → Nat) :
    Naive.CapAll grow (NewNaive 20 10) 20
        [[104, 101, 108, 108, 111, 33, 10],
          [100, 101, 114, 112, 32, 100, 101, 114, 112, 33, 10],
          [98, 121, 101, 33, 10]]
      = grow 13 16 := by
  rfl

/-! ## `Len()` and the cursors of the ring -/

theorem Ring.Len_pinned {r : Ring} {N : Nat} (hr : r.Inv N) :
    ((r.tail = r.head ∨ r.tail = r.head + N) → r.Len = N) ∧
    (¬ (r.tail = r.head ∨ r.tail = r.head + N) →
      r.Len = ((r.tail : Int) - r.head) % N) := by
  obtain ⟨hlen, hhead, htail⟩ := hr
  unfold Ring.Len
  rw [hlen]
  refine ⟨?_, ?_⟩
  · intro h
    split <;> omega
  · intro h
    split
    · rw [Int.emod_eq_of_lt (by omega) (by omega)]
    · have h1 : ((r.tail : Int) - r.head) % N = ((r.tail : Int) - r.head + N) % N := by
        rw [Int.add_emod_self]
      rw [h1, Int.emod_eq_of_lt (by omega) (by omega)]
      omega

theorem Ring.AddAll_nonempty_pos (N : Nat) (sep : Byte) (b : List Byte)
    (bs : List (List Byte)) (r : Ring) (hb : b ≠ [])
    (h : (NewRing N sep).AddAll (b :: bs) = some r) : 0 < N := by
  rcases Nat.eq_zero_or_pos N with hN | hN
  · exfalso
    have hpos : 0 < b.length := List.length_pos.mpr hb
    have hadd : (NewRing N sep).Add b = none := by
      unfold Ring.Add NewRing
      simp only [List.length_replicate, hN]
      rw [if_pos (by omega)]
      rfl
    simp [Ring.AddAll, hadd] at h
  · exact hN

/-- C12 (as amended): in every state reached from `NewRing N sep` by a
sequence of completed `Add` calls that starts with a non-empty byte string,
the capacity `N` is positive and `Len()` is determined by the cursors: it is
`N` (not `0`) when `tail - head` is `0` or `N`, and `(tail - head) mod N` in
every other case; in particular `Len() = N` whenever `head = tail`, because
coinciding cursors mean a full ring. -/
theorem ring_len_mod_capacity (N : Nat) (sep : Byte) (b : List Byte) (bs : List (List Byte))
    (r : Ring) (hb : b ≠ []) (h : (NewRing N sep).AddAll (b :: bs) = some r) :
    0 < N ∧
    ((r.tail = r.head ∨ r.tail = r.head + N) → r.Len = N) ∧
    (¬ (r.tail = r.head ∨ r.tail = r.head + N) →
      r.Len = ((r.tail : Int) - r.head) % N) :=
  ⟨Ring.AddAll_nonempty_pos N sep b bs r hb h,
    Ring.Len_pinned (Ring.AddAll_inv (b :: bs) (NewRing_inv N sep) h)⟩

/-- One line of two bytes in a ring of two bytes: the cursors are `head = 0`,
`tail = 2`, so `tail - head` is the capacity and `Len()` is 2. -/
theorem ring_len_mod_capacity_witness :
    0 < 2 ∧
    ((Ring.tail ⟨[0, 10], 0, 2, 10⟩ = Ring.head ⟨[0, 10], 0, 2, 10⟩ ∨
        Ring.tail ⟨[0, 10], 0, 2, 10⟩ = Ring.head ⟨[0, 10], 0, 2, 10⟩ + 2) →
      Ring.Len ⟨[0, 10], 0, 2, 10⟩ = ((2 : Nat) : Int)) ∧
    (¬ (Ring.tail ⟨[0, 10], 0, 2, 10⟩ = Ring.head ⟨[0, 10], 0, 2, 10⟩ ∨
        Ring.tail ⟨[0, 10], 0, 2, 10⟩ = Ring.head ⟨[0, 10], 0, 2, 10⟩ + 2) →
      Ring.Len ⟨[0, 10], 0, 2, 10⟩
        = ((Ring.tail ⟨[0, 10], 0, 2, 10⟩ : Int) - Ring.head ⟨[0, 10], 0, 2, 10⟩)
          % ((2 : Nat) : Int)) :=
  ring_len_mod_capacity 2 10 [0, 10] [] ⟨[0, 10], 0, 2, 10⟩ (by decide) (by decide)

/-- C12 as stated fails: capacity 2, separator 10. After one `Add` of the two
bytes `0, 10` the cursors are `head = 0`, `tail = 2` and `Len()` is 2, while
`(tail - head) mod 2` is 0. After a second such `Add` the cursors are
`head = tail = 0` and `Len()` is 2, not 0. -/
theorem ring_len_not_zero_when_cursors_meet :
    (NewRing 2 10).AddAll [[0, 10]] = some ⟨[0, 10], 0, 2, 10⟩ ∧
    Ring.Len ⟨[0, 10], 0, 2, 10⟩ = 2 ∧ ((2 : Int) - 0) % 2 = 0 ∧
    (NewRing 2 10).AddAll [[0, 10], [0, 10]] = some ⟨[0, 10], 0, 0, 10⟩ ∧
    Ring.Len ⟨[0, 10], 0, 0, 10⟩ = 2 := by
  decide

/-! ## A record as long as the ring, added over and over -/

theorem IndexByte_append_sep (sep : Byte) (xs rest : List Byte) (h : sep ∉ xs) :
    IndexByte (xs ++ sep :: rest) sep = some xs.length := by
  induction xs with
  | nil => simp [IndexByte]
  | cons x xs ih =>
    have hx : ¬ (x = sep) := fun e => h (by simp [e])
    have hxs : sep ∉ xs := fun e => h (by simp [e])
    simp [IndexByte, hx, ih hxs]

theorem copy_whole (buf d : List Byte) (h : d.length = buf.length) :
    copy buf 0 d.length d = d := by
  unfold copy
  simp [h]

theorem Ring.Add_whole (buf d : List Byte) (sep : Byte) (h : d.length = buf.length) :
    Ring.Add ⟨buf, 0, 0, sep⟩ d = some ⟨d, 0, d.length, sep⟩ := by
  rw [Ring.Add_fit _ _ (by simp [h])]
  simp only [Nat.add_zero]
  rw [copy_whole buf d h]

theorem Ring.Add_whole_again (body : List Byte) (sep : Byte) (hb : sep ∉ body)
    (hne : body ≠ []) :
    Ring.Add ⟨body ++ [sep], 0, (body ++ [sep]).length, sep⟩ (body ++ [sep])
      = some ⟨body ++ [sep], 0, 0, sep⟩ := by
  obtain ⟨x, xs, rfl⟩ := List.exists_cons_of_ne_nil hne
  have hxs : sep ∉ xs := fun e => hb (by simp [e])
  have hscan : slice (x :: xs ++ [sep]) 1 (x :: xs ++ [sep]).length = some (xs ++ [sep]) := by
    rw [slice_to_end _ _ (by simp)]; rfl
  have hidx : IndexByte (xs ++ [sep]) sep = some xs.length := IndexByte_append_sep sep xs [] hxs
  unfold Ring.Add
  simp only
  have hn : (x :: xs ++ [sep]).length ≠ 0 := by simp
  rw [if_pos (by omega), if_neg hn, if_neg (by omega), if_neg (by omega)]
  have hmod : ((x :: xs ++ [sep]).length + (x :: xs ++ [sep]).length) %
      (x :: xs ++ [sep]).length = 0 := by
    rw [Nat.add_mod_right, Nat.mod_self]
  simp only [hmod, Nat.sub_self, List.take_zero, List.drop_zero]
  have hc1 : copy (x :: xs ++ [sep]) (x :: xs ++ [sep]).length (x :: xs ++ [sep]).length []
      = x :: xs ++ [sep] := by
    unfold copy; simp
  have hc2 : copy (x :: xs ++ [sep]) 0 0 (x :: xs ++ [sep]) = x :: xs ++ [sep] := by
    unfold copy; simp
  rw [hc1, hc2, hscan]
  simp only [hidx]
  congr 2
  simp only [List.length_append, List.length_cons, List.length_singleton, List.length_nil]
  rw [show 0 + 1 + xs.length + 1 = xs.length + 1 + (0 + 1) by omega, Nat.mod_self]

theorem Ring.Walk_whole (d : List Byte) (sep : Byte) (hd : IsRecord sep d) (t : Nat)
    (ht : t = 0 ∨ t = d.length) : Ring.Walk ⟨d, 0, t, sep⟩ = some [d] := by
  have hpos : 0 < d.length := by
    obtain ⟨body, rfl, _⟩ := hd
    simp
  have hlen : (Ring.Len ⟨d, 0, t, sep⟩).toNat = d.length := by
    unfold Ring.Len
    rcases ht with rfl | rfl
    · simp
    · simp only [hpos, if_true]; omega
  unfold Ring.Walk
  rw [hlen, walkLoop_eq_naiveLoop _ _ _ _ _ (by simp) (le_refl _)]
  have := naiveLoop_records sep [d] (by simpa using hd) [] []
  simpa using this

theorem Ring.AddAll_whole (body : List Byte) (sep : Byte) (hb : sep ∉ body) (hne : body ≠ []) :
    ∀ (k : Nat) (t : Nat), t = 0 ∨ t = (body ++ [sep]).length →
      ∃ t', (t' = 0 ∨ t' = (body ++ [sep]).length) ∧
        Ring.AddAll ⟨body ++ [sep], 0, t, sep⟩ (List.replicate k (body ++ [sep]))
          = some ⟨body ++ [sep], 0, t', sep⟩ := by
  intro k
  induction k with
  | zero => intro t ht; exact ⟨t, ht, rfl⟩
  | succ k ih =>
    intro t ht
    rcases ht with rfl | rfl
    · obtain ⟨t', ht', h⟩ := ih (body ++ [sep]).length (Or.inr rfl)
      refine ⟨t', ht', ?_⟩
      simp only [List.replicate_succ, Ring.AddAll, Ring.Add_whole _ _ sep rfl]
      exact h
    · obtain ⟨t', ht', h⟩ := ih 0 (Or.inl rfl)
      refine ⟨t', ht', ?_⟩
      simp only [List.replicate_succ, Ring.AddAll, Ring.Add_whole_again body sep hb hne]
      exact h

/-- C13: for every capacity `N ≥ 2`, every record `d` of exactly `N` bytes
(bytes free of the separator followed by the separator) and every `k ≥ 1`,
adding `d` to `NewRing N sep` `k` times in a row completes every time and
`Walk` then surfaces exactly one record, `d`. -/
theorem ring_full_record_repeated (N : Nat) (sep : Byte) (d : List Byte) (k : Nat)
    (hN : 2 ≤ N) (hd : IsRecord sep d) (hlen : d.length = N) (hk : 1 ≤ k) :
    ((NewRing N sep).AddAll (List.replicate k d)).bind Ring.Walk = some [d] := by
  obtain ⟨body, rfl, hb⟩ := hd
  have hne : body ≠ [] := by
    intro e
    rw [e] at hlen
    simp at hlen
    omega
  obtain ⟨k', rfl⟩ : ∃ k', k = k' + 1 := ⟨k - 1, by omega⟩
  have hfirst : (NewRing N sep).Add (body ++ [sep])
      = some ⟨body ++ [sep], 0, (body ++ [sep]).length, sep⟩ :=
    Ring.Add_whole (List.replicate N 0) (body ++ [sep]) sep (by simp [hlen])
  obtain ⟨t', ht', h⟩ := Ring.AddAll_whole body sep hb hne k' _ (Or.inr rfl)
  simp only [List.replicate_succ, Ring.AddAll, hfirst]
  rw [h, Option.some_bind]
  exact Ring.Walk_whole _ sep ⟨body, rfl, hb⟩ t' ht'

/-- The input of `TestAddingLineSameSizeManyTimes` with capacity 4 and five
Adds. -/
theorem ring_full_record_repeated_witness :
    ((NewRing 4 10).AddAll (List.replicate 5 [255, 255, 255, 10])).bind Ring.Walk
      = some [[255, 255, 255, 10]] :=
  ring_full_record_repeated 4 10 [255, 255, 255, 10] 5 (by decide)
    ⟨[255, 255, 255], rfl, by decide⟩ (by decide) (by decide)

/-! ## Traversal of the ring does not go out of range -/

theorem imin_mod_lt (i n : Nat) (hn : n ≠ 0) : imin (i % n) i < n := by
  have := Nat.mod_lt i (Nat.pos_of_ne_zero hn)
  unfold imin
  split <;> omega

theorem walkLoop_total (buf : List Byte) (sep : Byte) (hn : buf.length ≠ 0) :
    ∀ (count i lastHead : Nat), lastHead ≤ buf.length →
      ∃ out, walkLoop buf sep count i lastHead = some out := by
  intro count
  induction count with
  | zero => intro i lastHead _; exact ⟨[], rfl⟩
  | succ k ih =>
    intro i lastHead hl
    have hidx := imin_mod_lt i buf.length hn
    have hget : buf[imin (i % buf.length) i]? = some (buf[imin (i % buf.length) i]) :=
      List.getElem?_eq_getElem hidx
    simp only [walkLoop, hn, if_false, hget]
    by_cases hc : buf[imin (i % buf.length) i] = sep
    · simp only [hc, if_true]
      obtain ⟨out, hout⟩ := ih (i + 1) (imin (i % buf.length) i + 1) (by omega)
      by_cases hw : imin (i % buf.length) i + 1 < lastHead
      · have h1 : slice buf lastHead buf.length = some (buf.drop lastHead) :=
          slice_to_end buf lastHead hl
        have h2 : slice buf 0 (imin (i % buf.length) i + 1)
            = some ((buf.take (imin (i % buf.length) i + 1)).drop 0) := by
          unfold slice
          rw [if_pos ⟨Nat.zero_le _, by omega⟩]
        simp only [hw, if_true, h1, h2, hout]
        exact ⟨_, rfl⟩
      · have h3 : slice buf lastHead (imin (i % buf.length) i + 1)
            = some ((buf.take (imin (i % buf.length) i + 1)).drop lastHead) := by
          unfold slice
          rw [if_pos ⟨by omega, by omega⟩]
        simp only [hw, if_false, h3, hout]
        exact ⟨_, rfl⟩
    · simp only [hc, if_false]
      exact ih (i + 1) lastHead hl

theorem Ring.Walk_total {r : Ring} {N : Nat} (hr : r.Inv N) : ∃ out, r.Walk = some out := by
  obtain ⟨hlen, hhead, htail⟩ := hr
  unfold Ring.Walk
  by_cases hn : r.buffer.length = 0
  · have hz : r.Len.toNat = 0 := by
      unfold Ring.Len
      split <;> omega
    rw [hz]
    exact ⟨[], rfl⟩
  · exact walkLoop_total r.buffer r.sep hn _ _ _ (by omega)

/-- C14: in every state reached from `NewRing N sep` by `Add` calls that
completed, for every capacity `N` (zero included), `Walk` completes: no index
and no slice bound of the traversal is out of range. -/
theorem ring_walk_never_fails (N : Nat) (sep : Byte) (bs : List (List Byte)) (r : Ring)
    (h : (NewRing N sep).AddAll bs = some r) : ∃ out, r.Walk = some out :=
  Ring.Walk_total (Ring.AddAll_inv bs (NewRing_inv N sep) h)

/-- A wrapped state: three lines of five bytes in a ring of seven bytes. -/
theorem ring_walk_never_fails_witness :
    ∃ out, Ring.Walk ⟨[10, 112, 10, 104, 101, 114, 112], 3, 1, 10⟩ = some out :=
  ring_walk_never_fails 7 10
    [[104, 101, 114, 112, 10], [104, 101, 114, 112, 10], [104, 101, 114, 112, 10]]
    ⟨[10, 112, 10, 104, 101, 114, 112], 3, 1, 10⟩ (by decide)

/-! ## Traversal as a split at the separators -/

theorem naiveLoop_records_then (sep : Byte) (rs : List (List Byte))
    (hrec : ∀ r ∈ rs, IsRecord sep r) :
    ∀ (pre rest : List Byte) (k : Nat),
      naiveLoop (pre ++ (rs.flatten ++ rest)) sep (rs.flatten.length + k) pre.length pre.length
        = (naiveLoop (pre ++ (rs.flatten ++ rest)) sep k (pre.length + rs.flatten.length)
            (pre.length + rs.flatten.length)).map (rs ++ ·) := by
  induction rs with
  | nil =>
    intro pre rest k
    simp
  | cons r rs ih =>
    intro pre rest k
    obtain ⟨body, rfl, hb⟩ := hrec r (by simp)
    have hrest : ∀ r ∈ rs, IsRecord sep r := fun r hr => hrec r (by simp [hr])
    have h1 := naiveLoop_record sep body hb pre (rs.flatten ++ rest) (rs.flatten.length + k)
    have h2 := ih hrest (pre ++ (body ++ [sep])) rest k
    simp only [List.flatten_cons, List.length_append, List.append_assoc, Nat.add_assoc]
      at h1 h2 ⊢
    rw [h1, h2, Option.map_map]
    rfl

theorem split_at_separators (sep : Byte) (c : List Byte) :
    ∃ (rs : List (List Byte)) (rest : List Byte),
      c = rs.flatten ++ rest ∧ (∀ l ∈ rs, IsRecord sep l) ∧ sep ∉ rest := by
  induction c with
  | nil => exact ⟨[], [], rfl, by simp, by simp⟩
  | cons x xs ih =>
    obtain ⟨rs, rest, hc, hrec, hrest⟩ := ih
    by_cases hx : x = sep
    · refine ⟨[sep] :: rs, rest, by simp [hc, hx], ?_, hrest⟩
      intro l hl
      rcases List.mem_cons.mp hl with rfl | hl
      · exact ⟨[], rfl, by simp⟩
      · exact hrec l hl
    · cases rs with
      | nil =>
        refine ⟨[], x :: rest, by simpa using hc, by simp, ?_⟩
        intro hm
        rcases List.mem_cons.mp hm with e | hm
        · exact hx e.symm
        · exact hrest hm
      | cons r rs =>
        refine ⟨(x :: r) :: rs, rest, by simp [hc], ?_, hrest⟩
        intro l hl
        rcases List.mem_cons.mp hl with rfl | hl
        · obtain ⟨body, rfl, hb⟩ := hrec r (by simp)
          refine ⟨x :: body, rfl, ?_⟩
          intro hm
          rcases List.mem_cons.mp hm with e | hm
          · exact hx e.symm
          · exact hb hm
        · exact hrec l (by simp [hl])

theorem naiveLoop_region (sep : Byte) (rs : List (List Byte)) (rest : List Byte)
    (hrec : ∀ r ∈ rs, IsRecord sep r) (hrest : sep ∉ rest) (pre post : List Byte) :
    naiveLoop (pre ++ ((rs.flatten ++ rest) ++ post)) sep (rs.flatten ++ rest).length
        pre.length pre.length
      = some rs := by
  have h1 := naiveLoop_records_then sep rs hrec pre (rest ++ post) rest.length
  have h2 := naiveLoop_skip sep rest hrest (pre ++ rs.flatten) post 0
    (pre.length + rs.flatten.length)
  simp only [List.length_append, List.append_assoc, Nat.add_zero] at h1 h2 ⊢
  rw [h1, h2]
  simp [naiveLoop]

/-- C15: for every content `c` of the compacting buffer and every separator,
`Walk` completes and surfaces records `out` with `c = out.flatten ++ rest`,
where `rest` is free of the separator (so `out.flatten` is `c` up to and
including its last separator, empty if there is none, and `rest` is never
surfaced), and every surfaced record is bytes free of the separator followed by
the separator. -/
theorem naive_walk_splits_at_separators (r : Naive) :
    ∃ out rest, r.Walk = some out ∧ r.buffer = out.flatten ++ rest ∧ r.sep ∉ rest ∧
      ∀ l ∈ out, IsRecord r.sep l := by
  obtain ⟨rs, rest, hc, hrec, hrest⟩ := split_at_separators r.sep r.buffer
  refine ⟨rs, rest, ?_, hc, hrest, hrec⟩
  unfold Naive.Walk
  have := naiveLoop_region r.sep rs rest hrec hrest [] []
  rw [hc]
  simpa using this

/-! ## More inputs where the ring departs from its contract -/

/-- C16: failing input. Capacity 7, separator 10; after three Adds of `herp\n`
the ring holds `head = 3`, `tail = 1` and `Len() = 5`: the resident bytes, at
positions 3, 4, 5, 6, 0, are `herp\n`. A fourth `Add` of `herp\n` does not cross
the end of the backing array (`1 + 5 ≤ 7`) and leaves `head = 3`, yet it
writes positions 1 to 5: the bytes at the formerly resident positions 3, 4, 5
are overwritten and those five positions now read `rp\np\n`. -/
theorem ring_nonwrapping_add_overwrites_resident :
    (NewRing 7 10).AddAll
        [[104, 101, 114, 112, 10], [104, 101, 114, 112, 10], [104, 101, 114, 112, 10]]
      = some ⟨[10, 112, 10, 104, 101, 114, 112], 3, 1, 10⟩ ∧
    Ring.Len ⟨[10, 112, 10, 104, 101, 114, 112], 3, 1, 10⟩ = 5 ∧
    circRead [10, 112, 10, 104, 101, 114, 112] 3 5 = [104, 101, 114, 112, 10] ∧
    Ring.Add ⟨[10, 112, 10, 104, 101, 114, 112], 3, 1, 10⟩ [104, 101, 114, 112, 10]
      = some ⟨[10, 104, 101, 114, 112, 10, 112], 3, 6, 10⟩ ∧
    circRead [10, 104, 101, 114, 112, 10, 112] 3 5 = [114, 112, 10, 112, 10] := by
  decide

/-- C17: failing input. Capacity 2, separator 10; after `Add` of the two bytes
`0, 10` the tail is 2. A second `Add`, of the two bytes `5, 10`, completes, but
`newTail` is `4 % 2 = 0` and `overflow` is 0, so both copies are empty: the
backing array still holds `0, 10`, which is what the positions `2 mod 2`,
`3 mod 2` read and what `Walk` surfaces. -/
theorem ring_add_full_at_end_stores_nothing :
    (NewRing 2 10).Add [0, 10] = some ⟨[0, 10], 0, 2, 10⟩ ∧
    Ring.Add ⟨[0, 10], 0, 2, 10⟩ [5, 10] = some ⟨[0, 10], 0, 0, 10⟩ ∧
    circRead [0, 10] 2 2 = [0, 10] ∧
    Ring.Walk ⟨[0, 10], 0, 0, 10⟩ = some [[0, 10]] := by
  decide

/-- C18: failing input. Capacity 2, separator 10; the Adds of `10, 0`, of `5`
and of `10` all complete and leave `head = tail = 2` over the backing array
`5, 10`. `Walk` scans both bytes, finds the separator at index 1 with
`lastHead = 2`, and since `2 < 2` is false it surfaces `buffer[2:2]`, an empty
slice. -/
theorem ring_walk_surfaces_empty_slice :
    (NewRing 2 10).AddAll [[10, 0], [5], [10]] = some ⟨[5, 10], 2, 2, 10⟩ ∧
    Ring.Walk ⟨[5, 10], 2, 2, 10⟩ = some [[]] := by
  decide

/-! ## The resident bytes of the ring -/

theorem circRead_length (buf : List Byte) :
    ∀ (count start : Nat), (circRead buf start count).length = count := by
  intro count
  induction count with
  | zero => intro start; rfl
  | succ k ih => intro start; simp [circRead, ih]

theorem circRead_linear (buf : List Byte) :
    ∀ (count start : Nat), start + count ≤ buf.length →
      circRead buf start count = (buf.take (start + count)).drop start := by
  intro count
  induction count with
  | zero => intro start _; simp [circRead]
  | succ k ih =>
    intro start h
    have hlt : start < buf.length := by omega
    have hlt' : start < (buf.take (start + (k + 1))).length := by
      rw [List.length_take]; omega
    rw [circRead, Nat.mod_eq_of_lt hlt, List.getD_eq_getElem buf 0 hlt,
      ih (start + 1) (by omega), List.drop_eq_getElem_cons hlt', List.getElem_take]
    rw [show start + 1 + k = start + (k + 1) by omega]

theorem circRead_append (buf : List Byte) :
    ∀ (a c start : Nat),
      circRead buf start (a + c) = circRead buf start a ++ circRead buf (start + a) c := by
  intro a
  induction a with
  | zero => intro c start; simp [circRead]
  | succ a ih =>
    intro c start
    rw [show a + 1 + c = (a + c) + 1 by omega, circRead, circRead, ih c (start + 1)]
    rw [show start + 1 + a = start + (a + 1) by omega]
    rfl

theorem circRead_add_length (buf : List Byte) :
    ∀ (count start : Nat),
      circRead buf (start + buf.length) count = circRead buf start count := by
  intro count
  induction count with
  | zero => intro start; rfl
  | succ k ih =>
    intro start
    rw [circRead, circRead, Nat.add_mod_right,
      show start + buf.length + 1 = (start + 1) + buf.length by omega, ih (start + 1)]

theorem Ring.resident_eq {r : Ring} {N : Nat} (hr : r.Inv N) :
    circRead r.buffer r.head r.Len.toNat = r.unrolled.drop (N - r.Len.toNat) := by
  obtain ⟨hlen, hhead, htail⟩ := hr
  have hdl : (r.buffer.drop r.tail).length = N - r.tail := by
    rw [List.length_drop, hlen]
  unfold Ring.unrolled
  by_cases hlt : r.head < r.tail
  · have hL : r.Len.toNat = r.tail - r.head := by
      unfold Ring.Len; rw [if_pos hlt]; omega
    rw [hL, circRead_linear _ _ _ (by omega),
      show r.head + (r.tail - r.head) = r.tail by omega,
      show N - (r.tail - r.head) = (r.buffer.drop r.tail).length + r.head by omega,
      List.drop_append]
  · have hL : r.Len.toNat = (N - r.head) + r.tail := by
      unfold Ring.Len; rw [if_neg hlt]; omega
    rw [hL, circRead_append, circRead_linear _ _ _ (by omega),
      show r.head + (N - r.head) = 0 + r.buffer.length by omega,
      circRead_add_length, circRead_linear _ _ _ (by omega),
      show N - (N - r.head + r.tail) = r.head - r.tail by omega,
      List.drop_append_of_le_length (by omega), List.drop_drop,
      show r.tail + (r.head - r.tail) = r.head by omega]
    simp

/-! ## What one `Add` does to the backing array -/

theorem Ring.Add_wrap {r : Ring} {N : Nat} (hr : r.Inv N) (b : List Byte)
    (hb : b.length < N) (hw : N < b.length + r.tail) :
    ∃ h', h' ≤ N ∧
      (IndexByte (((r.buffer.take r.tail).drop (b.length + r.tail - N)).drop 1) r.sep = none →
        h' = r.tail) ∧
      r.Add b = some ⟨b.drop (N - r.tail) ++ (r.buffer.take r.tail).drop (b.length + r.tail - N)
          ++ b.take (N - r.tail), h', b.length + r.tail - N, r.sep⟩ := by
  obtain ⟨hlen, hhead, htail⟩ := hr
  have hN : N ≠ 0 := by omega
  have hmod : (b.length + r.tail) % N = b.length + r.tail - N := by
    rw [Nat.mod_eq_sub_mod (by omega), Nat.mod_eq_of_lt (by omega)]
  have hc1 : copy r.buffer r.tail N (b.take (N - r.tail))
      = r.buffer.take r.tail ++ b.take (N - r.tail) := by
    unfold copy
    simp only [List.length_take]
    rw [show min (N - r.tail) (min (N - r.tail) b.length) = N - r.tail by omega,
      List.take_take, Nat.min_self,
      List.drop_of_length_le (by omega), List.append_nil]
  have hc2 : copy (r.buffer.take r.tail ++ b.take (N - r.tail)) 0 (b.length + r.tail - N)
      (b.drop (N - r.tail))
      = b.drop (N - r.tail) ++ (r.buffer.take r.tail).drop (b.length + r.tail - N)
        ++ b.take (N - r.tail) := by
    unfold copy
    simp only [List.length_drop, List.take_zero, List.nil_append, Nat.sub_zero, Nat.zero_add]
    rw [show min (b.length + r.tail - N) (b.length - (N - r.tail)) = b.length + r.tail - N
        by omega,
      List.take_of_length_le (by rw [List.length_drop]; omega),
      List.drop_append_of_le_length (by rw [List.length_take]; omega), List.append_assoc]
  have hsl : slice (b.drop (N - r.tail) ++ (r.buffer.take r.tail).drop (b.length + r.tail - N)
        ++ b.take (N - r.tail)) (b.length + r.tail - N + 1) r.tail
      = some (((r.buffer.take r.tail).drop (b.length + r.tail - N)).drop 1) := by
    have hl1 : (b.drop (N - r.tail)).length = b.length + r.tail - N := by
      rw [List.length_drop]; omega
    have hl2 : ((r.buffer.take r.tail).drop (b.length + r.tail - N)).length
        = r.tail - (b.length + r.tail - N) := by
      rw [List.length_drop, List.length_take]; omega
    have hmid := slice_middle (b.drop (N - r.tail))
      ((r.buffer.take r.tail).drop (b.length + r.tail - N)) (b.take (N - r.tail))
    unfold slice at hmid ⊢
    rw [if_pos (by simp only [List.length_append, hl1, hl2, List.length_take]; omega)]
    rw [if_pos (by simp only [List.length_append, hl1, hl2, List.length_take]; omega)] at hmid
    rw [hl1, hl2, show b.length + r.tail - N + (r.tail - (b.length + r.tail - N)) = r.tail
      by omega, ← List.append_assoc] at hmid
    have hmid' := Option.some.inj hmid
    rw [show b.length + r.tail - N + 1 = (b.length + r.tail - N) + 1 by rfl,
      ← List.drop_drop, hmid']
  unfold Ring.Add
  simp only [hlen]
  rw [if_pos (by omega), if_neg hN, if_neg (by omega), if_neg (by omega)]
  simp only [hmod, hc1, hc2, hsl]
  cases hidx : IndexByte (((r.buffer.take r.tail).drop (b.length + r.tail - N)).drop 1) r.sep with
  | none => exact ⟨r.tail, htail, fun _ => rfl, rfl⟩
  | some i =>
    exact ⟨(b.length + r.tail - N + 1 + i + 1) % N,
      Nat.le_of_lt (Nat.mod_lt _ (Nat.pos_of_ne_zero hN)), fun h => absurd h (by simp), rfl⟩

theorem Ring.unrolled_fit (r : Ring) (b : List Byte) (h : b.length + r.tail ≤ r.buffer.length) :
    Ring.unrolled { r with buffer := copy r.buffer r.tail (b.length + r.tail) b,
                           tail := b.length + r.tail }
      = r.unrolled.drop b.length ++ b := by
  have hc := copy_fit (r.buffer.take r.tail) (r.buffer.drop r.tail) b
  rw [List.take_append_drop, List.length_take, Nat.min_eq_left (by omega)] at hc
  unfold Ring.unrolled
  simp only [hc]
  have hl : (r.buffer.take r.tail ++ b).length = b.length + r.tail := by
    rw [List.length_append, List.length_take]; omega
  rw [← hl, List.drop_left, List.take_left,
    List.drop_append_of_le_length (by rw [List.length_drop]; omega), List.append_assoc]

theorem Ring.unrolled_wrap {r : Ring} {N : Nat} (hr : r.Inv N) (b : List Byte) (h' : Nat)
    (hw : N < b.length + r.tail) :
    Ring.unrolled ⟨b.drop (N - r.tail) ++ (r.buffer.take r.tail).drop (b.length + r.tail - N)
        ++ b.take (N - r.tail), h', b.length + r.tail - N, r.sep⟩
      = r.unrolled.drop b.length ++ b := by
  obtain ⟨hlen, hhead, htail⟩ := hr
  have hl1 : (b.drop (N - r.tail)).length = b.length + r.tail - N := by
    rw [List.length_drop]; omega
  unfold Ring.unrolled
  simp only
  rw [List.append_assoc]
  nth_rewrite 1 [← hl1]
  nth_rewrite 2 [← hl1]
  rw [List.drop_left, List.take_left, List.append_assoc, List.take_append_drop]
  have hdl : (r.buffer.drop r.tail).length = N - r.tail := by rw [List.length_drop, hlen]
  rw [show b.length = (r.buffer.drop r.tail).length + (b.length + r.tail - N) by omega,
    List.drop_append]
  rw [hdl, show N - r.tail + (b.length + r.tail - N) = b.length by omega]

/-! ## The ring keeps the end of the stream -/

theorem suffix_append_right {x y : List Byte} (h : x <:+ y) (b : List Byte) :
    x ++ b <:+ y ++ b := by
  obtain ⟨t, rfl⟩ := h
  exact ⟨t, by rw [List.append_assoc]⟩

theorem stream_suffix_step (N : Nat) (S rot b : List Byte) (hrot : rot.length = N)
    (hb : b.length ≤ N) (h : S.drop (S.length - N) <:+ rot) :
    (S ++ b).drop ((S ++ b).length - N) <:+ rot.drop b.length ++ b := by
  rw [List.length_append, List.drop_append_of_le_length (by omega)]
  apply suffix_append_right
  refine @List.suffix_of_suffix_length_le _ _ rot _ ?_ (List.drop_suffix _ _) ?_
  · refine List.IsSuffix.trans ?_ h
    rw [show S.length + b.length - N = (S.length - N) + (S.length + b.length - N - (S.length - N))
      by omega, ← List.drop_drop]
    exact List.drop_suffix _ _
  · simp only [List.length_drop]
    omega

theorem Ring.unrolled_length {r : Ring} {N : Nat} (hr : r.Inv N) : r.unrolled.length = N := by
  obtain ⟨hlen, _, htail⟩ := hr
  unfold Ring.unrolled
  rw [List.length_append, List.length_drop, List.length_take]
  omega

theorem Ring.Tracks_new (N : Nat) (sep : Byte) : (NewRing N sep).Tracks N [] :=
  ⟨NewRing_inv N sep, Nat.le_refl _, Or.inl ⟨rfl, rfl⟩, by simp⟩

theorem Ring.Tracks_add {r : Ring} {N : Nat} {S : List Byte} (ht : r.Tracks N S)
    (b : List Byte) (hb1 : 1 ≤ b.length) (hb2 : b.length < N) :
    ∃ r', r.Add b = some r' ∧ r'.Tracks N (S ++ b) := by
  obtain ⟨hinv, htl, hlen, hsuf⟩ := ht
  have hrot := Ring.unrolled_length hinv
  have hstep := stream_suffix_step N S r.unrolled b hrot (by omega) hsuf
  by_cases hw : N < b.length + r.tail
  · obtain ⟨h', hh', _, hadd⟩ := Ring.Add_wrap hinv b hb2 hw
    refine ⟨_, hadd, ?_⟩
    have hinv' := Ring.Add_inv hinv hadd
    refine ⟨hinv', ?_, Or.inr ?_, ?_⟩
    · simp only [List.length_append]; omega
    · have := (Ring.Len_bounds hinv').2
      simp only [List.length_append]
      omega
    · rw [Ring.unrolled_wrap hinv b h' hw]
      exact hstep
  · have hfit : b.length + r.tail ≤ r.buffer.length := by rw [hinv.1]; omega
    have hadd := Ring.Add_fit r b hfit
    refine ⟨_, hadd, ?_⟩
    have hinv' := Ring.Add_inv hinv hadd
    refine ⟨hinv', ?_, Or.inr ?_, ?_⟩
    · simp only [List.length_append]; omega
    · have hl' : (copy r.buffer r.tail (b.length + r.tail) b).length = N := hinv'.1
      obtain ⟨hl, hh, htt⟩ := hinv
      simp only [List.length_append]
      rcases hlen with ⟨hS, hh0⟩ | hle
      · have : r.tail = 0 := by rw [hS] at htl; simpa using htl
        unfold Ring.Len
        simp only [hh0, this, hl']
        split <;> omega
      · unfold Ring.Len at hle ⊢
        simp only [hl, hl'] at hle ⊢
        split at hle <;> split <;> omega
    · rw [Ring.unrolled_fit r b hfit]
      exact hstep

theorem Ring.Tracks_addAll {N : Nat} (bs : List (List Byte)) :
    ∀ {r : Ring} {S : List Byte}, r.Tracks N S →
      (∀ b ∈ bs, 1 ≤ b.length ∧ b.length ≤ N - 1) →
      ∃ r', r.AddAll bs = some r' ∧ r'.Tracks N (S ++ bs.flatten) := by
  induction bs with
  | nil => intro r S ht _; exact ⟨r, rfl, by simpa using ht⟩
  | cons b bs ih =>
    intro r S ht hlen
    have hb := hlen b (by simp)
    obtain ⟨r1, hadd, ht1⟩ := Ring.Tracks_add ht b hb.1 (by omega)
    obtain ⟨r', hall, ht'⟩ := ih ht1 (fun c hc => hlen c (by simp [hc]))
    exact ⟨r', by simp only [Ring.AddAll, hadd]; exact hall,
      by simpa [List.append_assoc] using ht'⟩

/-- C20: for every capacity `N ≥ 2` and every non-empty sequence of byte
strings of length `1 .. N-1` added to `NewRing N sep`, every `Add` completes,
`Len()` is at most the number of bytes added, and the `Len()` bytes at the
circular positions `head`, `head + 1`, ... are exactly the last `Len()` bytes
of the concatenation of everything added. Each intermediate state is the
result of a shorter such sequence. -/
theorem ring_resident_is_end_of_stream (N : Nat) (sep : Byte) (bs : List (List Byte))
    (hN : 2 ≤ N) (hne : bs ≠ []) (hlen : ∀ b ∈ bs, 1 ≤ b.length ∧ b.length ≤ N - 1) :
    ∃ r, (NewRing N sep).AddAll bs = some r ∧ 0 ≤ r.Len ∧
      r.Len.toNat ≤ bs.flatten.length ∧
      circRead r.buffer r.head r.Len.toNat
        = bs.flatten.drop (bs.flatten.length - r.Len.toNat) := by
  obtain ⟨r, hall, hinv, _, hL, hsuf⟩ := Ring.Tracks_addAll bs (Ring.Tracks_new N sep) hlen
  rw [List.nil_append] at hL hsuf
  have hpos : 0 < bs.flatten.length := by
    cases bs with
    | nil => exact absurd rfl hne
    | cons b bs =>
      have := (hlen b (by simp)).1
      simp only [List.flatten_cons, List.length_append]
      omega
  have hle : r.Len.toNat ≤ bs.flatten.length := by
    rcases hL with ⟨hS, _⟩ | hle
    · rw [hS] at hpos; simp at hpos
    · exact hle
  have hb := Ring.Len_bounds hinv
  refine ⟨r, hall, hb.1, hle, ?_⟩
  rw [Ring.resident_eq hinv]
  have hrot := Ring.unrolled_length hinv
  have h1 : bs.flatten.drop (bs.flatten.length - r.Len.toNat) <:+ r.unrolled := by
    refine List.IsSuffix.trans ?_ hsuf
    rw [show bs.flatten.length - r.Len.toNat
        = (bs.flatten.length - N) + (bs.flatten.length - r.Len.toNat - (bs.flatten.length - N))
      by omega, ← List.drop_drop]
    exact List.drop_suffix _ _
  have h2 : r.unrolled.drop (N - r.Len.toNat) <:+ r.unrolled := List.drop_suffix _ _
  have h3 := List.suffix_of_suffix_length_le h2 h1 (by simp only [List.length_drop]; omega)
  exact h3.eq_of_length (by simp only [List.length_drop]; omega)

/-- The four Adds of `herp\n` to a ring of seven bytes: three bytes are
resident, `rp\n`, the last three of the twenty added. -/
theorem ring_resident_is_end_of_stream_witness :
    ∃ r, (NewRing 7 10).AddAll
          [[104, 101, 114, 112, 10], [104, 101, 114, 112, 10], [104, 101, 114, 112, 10],
            [104, 101, 114, 112, 10]] = some r ∧ 0 ≤ r.Len ∧
      r.Len.toNat ≤ (List.flatten
          [[104, 101, 114, 112, 10], [104, 101, 114, 112, 10], [104, 101, 114, 112, 10],
            [(104 : Byte), 101, 114, 112, 10]]).length ∧
      circRead r.buffer r.head r.Len.toNat
        = (List.flatten
            [[104, 101, 114, 112, 10], [104, 101, 114, 112, 10], [104, 101, 114, 112, 10],
              [104, 101, 114, 112, 10]]).drop
          ((List.flatten
            [[104, 101, 114, 112, 10], [104, 101, 114, 112, 10], [104, 101, 114, 112, 10],
              [(104 : Byte), 101, 114, 112, 10]]).length - r.Len.toNat) :=
  ring_resident_is_end_of_stream 7 10
    [[104, 101, 114, 112, 10], [104, 101, 114, 112, 10], [104, 101, 114, 112, 10],
      [104, 101, 114, 112, 10]]
    (by decide) (by decide) (by decide)

/-! ## Traversal across the end of the backing array -/

end LineHistory
